import Mathlib

/-!
Verification development for `dato/algo2-corrector`.

Shallow embedding of `src/pull_requests.py` (delivery-sync tool) and
`src/worker/java.py` (Java assignment corrector).

Conventions of the embedding:

* Git paths are modelled as lists of components (`List String`); the source
  manipulates slash-separated strings, and components never contain a slash,
  so the two representations are in bijection.
* A git object is either a blob (identified by its content hash, abstracted
  to a `Nat`) or a tree with a list of named, moded entries (`GEnts`).
* `gitdb.fun.traverse_tree_recursive(odb, sha, prefix)` is modelled by
  `traverseEnts`: it returns the `(binsha, mode, path)` triples of every
  blob reachable from a tree, each path prepended with the given prefix,
  recursing into sub-trees.
* `git.Tree.join(path)` raises `KeyError` when the path does not exist in
  the tree (its documented contract); it is modelled by `joinPath`
  returning `Option GObj`, with `none` for the `KeyError` case.
* Python `dict` build/update in `merged_entries` is modelled by an
  association list with insert-or-replace (`dinsert`); only the resulting
  key-value mapping is observable because the items are sorted afterwards.
* `git.index.fun.write_tree_from_cache(entries, ...)` creates the tree that
  contains exactly the given entries (its documented contract).  A returned
  tree object is therefore represented by its flat entry list where
  convenient, and rebuilt into a hierarchical object by `buildTree` where
  the source reads it back through `repo.tree()`.
-/

namespace Algo2

mutual
/-- A git object: a blob (content hash abstracted to `Nat`) or a tree. -/
inductive GObj : Type where
  | blob : Nat → GObj
  | tree : GEnts → GObj
  deriving DecidableEq

/-- The entries of a git tree: a list of (name, mode, object). -/
inductive GEnts : Type where
  | nil : GEnts
  | cons : String → Nat → GObj → GEnts → GEnts
  deriving DecidableEq
end

/-- One `(binsha, mode, path)` triple as produced by
`traverse_tree_recursive` and consumed by `merged_entries` /
`BaseIndexEntry((mode, sha, 0, path))` (the stage is the constant 0 and is
omitted). -/
structure TEntry where
  sha : Nat
  mode : Nat
  path : List String
  deriving DecidableEq, Repr

mutual
/-- Recursive traversal of a tree, blobs only, each path prefixed: model of
`git.objects.fun.traverse_tree_recursive(odb, tree.binsha, prefix)`.  The
source dispatches on `S_ISDIR(mode)`; well-formed git trees use directory
modes exactly on tree objects, so the model dispatches on the object
constructor. -/
def traverseEnts (pref : List String) : GEnts → List TEntry
  | .nil => []
  | .cons name mode obj rest =>
      traverseObj pref name mode obj ++ traverseEnts pref rest

/-- Companion of `traverseEnts` for a single entry's object. -/
def traverseObj (pref : List String) (name : String) (mode : Nat) :
    GObj → List TEntry
  | .blob sha => [⟨sha, mode, pref ++ [name]⟩]
  | .tree items => traverseEnts (pref ++ [name]) items
end

/-- Look a name up in a tree's entry list. -/
def lookupEnt : GEnts → String → Option (Nat × GObj)
  | .nil, _ => none
  | .cons n m o rest, name =>
      if n = name then some (m, o) else lookupEnt rest name

/-- Model of `git.Tree.join(path)`: walk the components; a missing name or
a blob met before the last component is a `KeyError` (modelled `none`). -/
def joinPath : GObj → List String → Option GObj
  | t, [] => some t
  | .blob _, _ :: _ => none
  | .tree items, n :: rest =>
      match lookupEnt items n with
      | none => none
      | some (_, o) => joinPath o rest

/-- Insert-or-replace in an association list keyed by path: model of a
Python `dict` assignment `d[k] = v` (replacing keeps the key's position,
which is unobservable after the final sort). -/
def dinsert (k : List String) (v : TEntry) :
    List (List String × TEntry) → List (List String × TEntry)
  | [] => [(k, v)]
  | (ka, va) :: rest =>
      if ka = k then (ka, v) :: rest else (ka, va) :: dinsert k v rest

/-- Fold a traversal into a path-keyed dict: model of
`{e[2]: e for e in traversal}` and of `dict.update` when the accumulator is
not empty. -/
def dbuild (d : List (List String × TEntry)) (es : List TEntry) :
    List (List String × TEntry) :=
  es.foldl (fun acc e => dinsert e.path e acc) d

/-- Dict lookup. -/
def dlookup : List (List String × TEntry) → List String → Option TEntry
  | [], _ => none
  | (ka, va) :: rest, k => if ka = k then some va else dlookup rest k

/-- Lexicographic comparison of code-point lists (Python compares strings
by code points). -/
def cpLtB : List Nat → List Nat → Bool
  | [], [] => false
  | [], _ :: _ => true
  | _ :: _, [] => false
  | a :: as, b :: bs =>
      if a < b then true else if b < a then false else cpLtB as bs

/-- Python `<` on strings: lexicographic by code point. -/
def strLtB (a b : String) : Bool :=
  cpLtB (a.toList.map Char.toNat) (b.toList.map Char.toNat)

/-- Strict lexicographic order on component paths, mirroring the sort key
of `sorted(ot.items())` (unique keys, so the key decides the order). -/
def pathLtB : List String → List String → Bool
  | [], [] => false
  | [], _ :: _ => true
  | _ :: _, [] => false
  | a :: as, b :: bs =>
      if strLtB a b then true else if strLtB b a then false else pathLtB as bs

/-- Model of `merged_entries(old_traversal, new_traversal)` from
`src/pull_requests.py`: build a dict from the old traversal, update it with
the new traversal (new wins on equal paths), then emit the values sorted by
path. -/
def merged_entries (old new : List TEntry) : List TEntry :=
  let ot := dbuild (dbuild [] old) new
  (List.insertionSort (fun a b => pathLtB b.1 a.1 = false) ot).map Prod.snd

/-- Model of `overwrite_files(repo, tree, subdir)` from
`src/pull_requests.py`.  `destRoot` is `repo.tree()`, `srcTree` is the
source snapshot, `subdir` the target subdirectory (empty list for the
default `""`).  With a non-empty `subdir` the source joins the destination
subtree (a `KeyError` — modelled `none` — if absent) and prefixes both
traversals with it.  The blob-copy loop only stores content already
identified by the entries' hashes (asserted to match) and does not affect
the returned tree, which `write_tree_from_cache` creates from exactly
`all_entries`; the result is represented by that entry list. -/
def overwrite_files (destRoot srcTree : GObj) (subdir : List String) :
    Option (List TEntry) :=
  let pref := subdir
  let oldT := if subdir = [] then some destRoot else joinPath destRoot subdir
  match oldT, srcTree with
  | some (.tree oldItems), .tree srcItems =>
      some (merged_entries (traverseEnts pref oldItems)
        (traverseEnts pref srcItems))
  | _, _ => none

example :
    overwrite_files
      (.tree (.cons "tp0" 16384 (.tree (.cons "a" 33188 (.blob 1) .nil)) .nil))
      (.tree (.cons "b" 33188 (.blob 2) .nil)) ["tp0"] =
    some [⟨1, 33188, ["tp0", "a"]⟩, ⟨2, 33188, ["tp0", "b"]⟩] := by
  decide

/-! ### Rebuilding a tree object from a flat entry list

`update_branch` reads the repository tree back (`repo.tree()`) after each
created commit; the commit's tree was written by `write_tree_from_cache`
from the merged entry list, so it contains exactly those entries.
`buildTree` reconstructs that hierarchical object. -/

/-- Replace the entry named `name` (or append it) in a tree's entry list. -/
def upsertEnt (name : String) (mode : Nat) (obj : GObj) : GEnts → GEnts
  | .nil => .cons name mode obj .nil
  | .cons n m o rest =>
      if n = name then .cons n mode obj rest
      else .cons n m o (upsertEnt name mode obj rest)

/-- Insert one `(path, sha, mode)` blob entry into a tree's entry list,
creating intermediate directories (git directory mode `0o40000 = 16384`). -/
def insertPathE : List String → Nat → Nat → GEnts → GEnts
  | [], _, _, es => es
  | [name], sha, mode, es => upsertEnt name mode (.blob sha) es
  | dir :: c :: rest, sha, mode, es =>
      let sub : GEnts :=
        match lookupEnt es dir with
        | some (_, .tree subEs) => subEs
        | _ => .nil
      upsertEnt dir 16384 (.tree (insertPathE (c :: rest) sha mode sub)) es

/-- The tree object containing exactly the given blob entries. -/
def buildTree (entries : List TEntry) : GObj :=
  .tree (entries.foldl (fun es e => insertPathE e.path e.sha e.mode es) .nil)

/-! ### Commit replay (`update_branch` in `src/pull_requests.py`) -/

/-- An upstream delivery commit as consumed by `update_branch`:
`commit.authored_date` (unix seconds), `commit.author_tz_offset` (seconds,
GitPython's sign convention), `commit.message`, and `commit.tree` (the
commit's root tree). -/
structure UCommit where
  authored_date : Int
  author_tz_offset : Int
  message : String
  tree : GObj
  deriving DecidableEq

/-- Decimal digits of `n`, left-padded with zeros to width 2: the effect of
Python's `{:02}` (and of `{:+03}` after the sign, which that format always
emits). -/
def pad2 (n : Nat) : String :=
  if n < 10 then "0" ++ toString n else toString n

/-- The timezone string built by `update_branch`:
`tz_hours = commit.author_tz_offset // 3600`,
`tz_minutes = commit.author_tz_offset % 3600 // 60`, rendered as
`f"{tz_hours:+03}{tz_minutes:02}"`.  Python floor division and floor
modulus are `Int.fdiv` / `Int.fmod`; `tz_minutes` is always non-negative
(`toNat`), and `{:+03}` prints the sign followed by the two-padded
magnitude. -/
def pyTzString (off : Int) : String :=
  (if off.fdiv 3600 < 0 then "-" else "+") ++ pad2 (off.fdiv 3600).natAbs ++
    pad2 ((off.fmod 3600).fdiv 60).toNat

/-- Modelled from the spec: the offset in seconds "reconstructed as a
`±HHMM`" string — sign of the offset, then whole hours of its magnitude,
then leftover minutes of its magnitude, each two digits. -/
def specTzString (off : Int) : String :=
  (if off < 0 then "-" else "+") ++ pad2 (off.natAbs / 3600) ++
    pad2 (off.natAbs % 3600 / 60)

/-- The author-date string passed to `Commit.create_from_tree`:
`f"{commit.authored_date} {tz_hours:+03}{tz_minutes:02}"`. -/
def pyDateString (authored : Int) (off : Int) : String :=
  toString authored ++ " " ++ pyTzString off

/-- A commit created by `git.Commit.create_from_tree(repo, tree, message,
head=True, author=..., author_date=..., committer=..., commit_date=...)`,
recorded with the argument values `update_branch` passes.  The created
tree is represented by the entry list `write_tree_from_cache` received. -/
structure NewCommit where
  authorName : String
  authorEmail : String
  committerName : String
  committerEmail : String
  message : String
  author_date : String
  commit_date : String
  treeEntries : List TEntry
  deriving DecidableEq

/-- The mutable repository state `update_branch` touches: the branch tip's
tree (`repo.tree()` reads it through `HEAD`), the index, the working tree,
and the list of commits created on the branch. -/
structure RepoState where
  headTree : GObj
  indexTree : GObj
  workTree : GObj
  history : List NewCommit
  deriving DecidableEq

/-- The argument record `create_from_tree` receives for one replayed
commit: identity and both dates from the resolved account and the original
commit's authored timestamp/offset, message verbatim. -/
def mkNewCommit (ghuser : String) (c : UCommit) (entries : List TEntry) :
    NewCommit :=
  let email := ghuser ++ "@users.noreply.github.com"
  let date := pyDateString c.authored_date c.author_tz_offset
  ⟨ghuser, email, ghuser, email, c.message, date, date, entries⟩

/-- The `for commit in reversed(pending_commits)` loop of `update_branch`:
for each commit, join the delivery subtree (`commit.tree.join(relpath)`),
merge it over the current repository tree (`overwrite_files`), create the
commit (moving the branch tip, `head=True`), and reset index and working
tree to it.  A failed join or merge raises in Python; the model stops
there and reports the fault.  Returns the final state, the
`(original, created)` pairs in application order, and the fault flag. -/
def replayLoop (relpath subdir : List String) (ghuser : String) :
    RepoState → List UCommit →
    RepoState × List (UCommit × NewCommit) × Bool
  | st, [] => (st, [], false)
  | st, c :: rest =>
    match joinPath c.tree relpath with
    | none => (st, [], true)
    | some entrega =>
      match overwrite_files st.headTree entrega subdir with
      | none => (st, [], true)
      | some entries =>
        let nc := mkNewCommit ghuser c entries
        let newHead := buildTree entries
        let st1 : RepoState := ⟨newHead, newHead, newHead, st.history ++ [nc]⟩
        let r := replayLoop relpath subdir ghuser st1 rest
        (r.1, (c, nc) :: r.2.1, r.2.2)

/-- Result of one `update_branch` call. -/
structure UBResult where
  state : RepoState
  printed : List String
  applied : List (UCommit × NewCommit)
  checkedOut : Bool
  faulted : Bool
  deriving DecidableEq

/-- Model of `update_branch(branch, subdir, upstream, ghuser)`.

* `st` — the repository state; `watermark` — `branch.commit.authored_date`
  (the branch tip's authored timestamp);
* `upstreamLog` — `upstream_repo.iter_commits(paths=[upstream_relpath])`:
  the delivery commits touching the student's path, in iteration order
  (git log order, newest first);
* `relpath` — `upstream_relpath`; `subdir` — the assignment subdirectory;
  `ghuser` — the resolved account.

Commits with `authored_date > watermark` are pending; with none, print
"nothing to do" and return; otherwise print the count, check out the
branch (index and working tree set to the tip) and replay the pending
commits in reversed iteration order. -/
def update_branch (st : RepoState) (workdir : String) (watermark : Int)
    (upstreamLog : List UCommit) (relpath subdir : List String)
    (ghuser : String) : UBResult :=
  let pending := upstreamLog.filter (fun c => watermark < c.authored_date)
  let p1 := "Processing " ++ workdir ++ "..."
  if pending.isEmpty then
    ⟨st, [p1, "nothing to do"], [], false, false⟩
  else
    let st0 : RepoState := ⟨st.headTree, st.headTree, st.headTree, st.history⟩
    let r := replayLoop relpath subdir ghuser st0 pending.reverse
    ⟨r.1, [p1, "applying " ++ toString pending.length ++ " commit(s)"],
      r.2.1, true, r.2.2⟩

/-! ### Roster lookup and per-student entry point (`update_repo`, `main`
in `src/pull_requests.py`) -/

/-- One row of the `fiubatp.tsv` roster as read by `csv.DictReader`.  A
missing or empty cell is the empty string, matching Python's falsiness
test `not row.get(...)`. -/
structure Row where
  legajo : String
  github : String
  repoUrl : String
  deriving DecidableEq

/-- How one `update_repo` call ended. -/
inductive URStatus where
  /-- The legajo was not found in the roster: plain `return`. -/
  | notFound : URStatus
  /-- The row has no `Github` account: diagnostic and `return`. -/
  | noGithub : URStatus
  /-- The repository is absent and the row has no `Repo` URL. -/
  | noRepoUrl : URStatus
  /-- All checks passed; the branch update proceeds with this account. -/
  | proceeded : String → URStatus
  deriving DecidableEq

/-- Result of `update_repo`: what it printed and how it ended.  Every path
of the function returns normally (the roster scan raises nothing), which
the model reflects by being a total function into this structure. -/
structure URResult where
  printed : List String
  status : URStatus
  deriving DecidableEq

/-- Model of `update_repo(tp_id, repodir, upstream, planilla_tsv, silent=True)`
up to the branch update (which `proceeded` hands over to
`update_branch`).  `legajo` is `repodir.name`; `rows` are the parsed
spreadsheet rows in file order; the scan takes the first row whose
`Legajo` field equals the legajo and otherwise hits the `for`/`else`
branch: an optional message and a plain `return`. -/
def update_repo (legajo : String) (repodirExists : Bool) (rows : List Row)
    (planilla : String) (silent : Bool) : URResult :=
  match rows.find? (fun r => r.legajo = legajo) with
  | none =>
      { printed :=
          if silent then []
          else ["no se pudo encontrar legajo " ++ legajo ++ " en " ++ planilla]
        status := .notFound }
  | some row =>
      if row.github = "" then
        { printed := ["no se pudo encontrar cuenta de Github para " ++ legajo]
          status := .noGithub }
      else if ¬repodirExists ∧ row.repoUrl = "" then
        { printed := ["no se pudo encontrar repo URL para " ++ legajo]
          status := .noRepoUrl }
      else
        { printed := [], status := .proceeded row.github }

/-- Model of the per-legajo loop in `main`: for each requested legajo, if
its delivery subtree exists, call `update_repo` — with the `silent`
parameter left at its default `True` — else print a diagnostic and
continue.  One result entry is produced for every requested legajo: no
outcome of `update_repo` interrupts the batch. -/
def mainLoop (legajos : List String) (upstreamExists : String → Bool)
    (repodirExists : String → Bool) (rows : List Row) (planilla : String) :
    List (String × Option URResult) :=
  legajos.map fun lg =>
    if upstreamExists lg then
      (lg, some (update_repo lg (repodirExists lg) rows planilla true))
    else
      (lg, none)

/-! ### The Java corrector (`src/worker/java.py`) -/

/-- `ResultTuple = namedtuple("ResultTuple", "succ, log")`. -/
structure ResultTuple where
  succ : Bool
  log : String
  deriving DecidableEq

/-- Outcome of one `subprocess.run(["ant", step] + silence, ...)`
invocation: a completed process with its exit code and captured
stdout+stderr text, or an unexpected fault (a raised exception). -/
inductive StepRes where
  | ok : Int → String → StepRes
  | fault : StepRes
  deriving DecidableEq

/-- `outcomes[step] = ResultTuple(success, text)` on the dict that was
initialised with `None` for every step. -/
def setOutcome (outs : List (String × Option ResultTuple)) (step : String)
    (v : ResultTuple) : List (String × Option ResultTuple) :=
  outs.map fun p => if p.1 = step then (p.1, some v) else p

/-- The loop state the `try` block hands to `finally`. -/
structure LoopRes where
  outcomes : List (String × Option ResultTuple)
  reject : Bool
  attempted : List String
  raised : Bool
  deriving DecidableEq

/-- The `for step in steps` loop of `CorregirJava.run`: invoke the build
tool, record `ResultTuple(returncode == 0, output)`, set the reject flag
and `break` on failure; a raised exception leaves the loop immediately
(the remaining outcomes keep their `None`). -/
def runLoop (exec : String → StepRes) :
    List String → List (String × Option ResultTuple) → Bool → LoopRes
  | [], outs, rej => ⟨outs, rej, [], false⟩
  | step :: rest, outs, rej =>
    match exec step with
    | .fault => ⟨outs, rej, [step], true⟩
    | .ok rc out =>
      let success := decide (rc = 0)
      let outs1 := setOutcome outs step ⟨success, out⟩
      if success then
        let r := runLoop exec rest outs1 rej
        ⟨r.outcomes, r.reject, step :: r.attempted, r.raised⟩
      else
        ⟨outs1, true, [step], false⟩

/-- `steps = ["compilar", "validar_api", "pruebas_basicas"]`. -/
def javaSteps : List String := ["compilar", "validar_api", "pruebas_basicas"]

/-- Result of one `CorregirJava.run` invocation. -/
structure RunResult where
  outcomes : List (String × Option ResultTuple)
  reject : Bool
  attempted : List String
  raised : Bool
  stdoutWrites : List String
  flushed : Bool

/-- Model of `CorregirJava.run`.  `exec` maps a step name to its build
invocation's outcome (the quiet flags added for the first two steps do not
enter the recorded structure); `render` is the Jinja template applied to
`{"steps": outcomes, "reject": flag}`.  The `try`/`finally` guarantees the
single `sys.stdout.write(templ.render(...))` and `sys.stdout.flush()`
whether the loop finished, broke, or raised. -/
def CorregirJava_run (exec : String → StepRes)
    (render : List (String × Option ResultTuple) → Bool → String) :
    RunResult :=
  let outs0 := javaSteps.map fun s => (s, (none : Option ResultTuple))
  let r := runLoop exec javaSteps outs0 false
  { outcomes := r.outcomes, reject := r.reject, attempted := r.attempted,
    raised := r.raised, stdoutWrites := [render r.outcomes r.reject],
    flushed := true }

/-! ### Workspace assembly (`CorregirJava.__init__`) -/

/-- A source file found by `path.glob("**/*.java")`: its directory
components below the tree root, its file name, and its content. -/
structure SrcFile where
  dirs : List String
  name : String
  content : String
  deriving DecidableEq

/-- `shutil.copy(file, corr)` into the flat `corr` directory: the file
lands under its base name, overwriting any earlier file with that name. -/
def sinsert (k v : String) : List (String × String) → List (String × String)
  | [] => [(k, v)]
  | (ka, va) :: rest =>
      if ka = k then (ka, v) :: rest else (ka, va) :: sinsert k v rest

/-- Copy a glob's files, in glob order, into the flat directory. -/
def copyInto (d : List (String × String)) (fs : List SrcFile) :
    List (String × String) :=
  fs.foldl (fun acc f => sinsert f.name f.content acc) d

/-- Flat-directory lookup by file name. -/
def slookup : List (String × String) → String → Option String
  | [], _ => none
  | (ka, va) :: rest, k => if ka = k then some va else slookup rest k

/-- Model of the copy loops of `CorregirJava.__init__`:
`for path in alu, pub: for file in path.glob("**/*.java"):
shutil.copy(file, corr)` — all student files first, then all skeleton
files, into the fresh flat `corr` directory. -/
def corrAssemble (alu pub : List SrcFile) : List (String × String) :=
  copyInto (copyInto [] alu) pub

/-! ### Concrete instances used by witnesses and counterexamples -/

/-- A concrete step oracle for the spec's scenario: compilar exits 0,
validar_api exits 1, pruebas_basicas would exit 0. -/
def stepOracle : String → StepRes := fun s =>
  if s = "compilar" then .ok 0 "ok1"
  else if s = "validar_api" then .ok 1 "bad"
  else .ok 0 "unused"

/-- The concrete repository state for the C1 witness and counterexample:
the branch tip tree has an empty `tp0` directory. -/
def c1State : RepoState :=
  ⟨.tree (.cons "tp0" 16384 (.tree .nil) .nil),
    .tree (.cons "tp0" 16384 (.tree .nil) .nil),
    .tree (.cons "tp0" 16384 (.tree .nil) .nil), []⟩

/-- A delivery commit tree holding `d/f.java`. -/
def c1Tree : GObj :=
  .tree (.cons "d" 16384 (.tree (.cons "f.java" 33188 (.blob 1) .nil)) .nil)

/-- Destination root for the C2 witness: `tp0/both` (hash 4) and
`tp0/keep` (hash 3). -/
def c2Dest : GObj :=
  .tree (.cons "tp0" 16384
    (.tree (.cons "both" 33188 (.blob 4)
      (.cons "keep" 33188 (.blob 3) .nil))) .nil)

/-- The entry list of `c2Dest`'s `tp0` subtree. -/
def c2OldItems : GEnts :=
  .cons "both" 33188 (.blob 4) (.cons "keep" 33188 (.blob 3) .nil)

/-- Source snapshot for the C2 witness: `both` (hash 5) and `new`
(hash 6). -/
def c2Src : GObj :=
  .tree (.cons "both" 33188 (.blob 5) (.cons "new" 33188 (.blob 6) .nil))

/-- The entry list of `c2Src`. -/
def c2SrcItems : GEnts :=
  .cons "both" 33188 (.blob 5) (.cons "new" 33188 (.blob 6) .nil)

/-- The merge result for the C2 witness. -/
def c2Res : List TEntry :=
  [⟨5, 33188, ["tp0", "both"]⟩, ⟨3, 33188, ["tp0", "keep"]⟩,
    ⟨6, 33188, ["tp0", "new"]⟩]

/-! ## Lemmas about the flat copy (`corr` assembly) -/

theorem slookup_sinsert (k v : String) (d : List (String × String))
    (k2 : String) :
    slookup (sinsert k v d) k2 = if k2 = k then some v else slookup d k2 := by
  induction d with
  | nil =>
      by_cases h : k2 = k
      · simp [sinsert, slookup, h]
      · simp [sinsert, slookup, h, Ne.symm h]
  | cons hd tl ih =>
      obtain ⟨ka, va⟩ := hd
      by_cases h1 : ka = k
      · subst h1
        by_cases h2 : k2 = ka
        · simp [sinsert, slookup, h2]
        · simp [sinsert, slookup, h2, Ne.symm h2]
      · by_cases h2 : ka = k2
        · subst h2
          simp [sinsert, slookup, h1, fun hh : ka = k => h1 hh]
        · simp [sinsert, slookup, h1, h2, ih]

theorem slookup_copyInto_not_mem (fs : List SrcFile)
    (d : List (String × String)) (n : String)
    (h : n ∉ fs.map SrcFile.name) :
    slookup (copyInto d fs) n = slookup d n := by
  induction fs generalizing d with
  | nil => rfl
  | cons f fs ih =>
      simp only [List.map_cons, List.mem_cons, not_or] at h
      show slookup (copyInto (sinsert f.name f.content d) fs) n = _
      rw [ih _ h.2, slookup_sinsert, if_neg h.1]

theorem slookup_copyInto_mem (fs : List SrcFile) (d : List (String × String))
    (n : String) (h : n ∈ fs.map SrcFile.name) :
    ∃ f, f ∈ fs ∧ f.name = n ∧ slookup (copyInto d fs) n = some f.content := by
  induction fs generalizing d with
  | nil => simp at h
  | cons f fs ih =>
      by_cases hn : n ∈ fs.map SrcFile.name
      · obtain ⟨g, hg, hgn, hlook⟩ := ih (sinsert f.name f.content d) hn
        exact ⟨g, List.mem_cons_of_mem _ hg, hgn, hlook⟩
      · have hfn : f.name = n := by
          simp only [List.map_cons, List.mem_cons] at h
          exact (h.resolve_right hn).symm
        refine ⟨f, List.mem_cons_self _ _, hfn, ?_⟩
        show slookup (copyInto (sinsert f.name f.content d) fs) n = _
        rw [slookup_copyInto_not_mem _ _ _ hn, slookup_sinsert, if_pos hfn.symm]

theorem slookup_copyInto_indep (fs : List SrcFile)
    (d d2 : List (String × String)) (n : String)
    (h : n ∈ fs.map SrcFile.name) :
    slookup (copyInto d fs) n = slookup (copyInto d2 fs) n := by
  induction fs generalizing d d2 with
  | nil => simp at h
  | cons f fs ih =>
      by_cases hn : n ∈ fs.map SrcFile.name
      · exact ih _ _ hn
      · have hfn : f.name = n := by
          simp only [List.map_cons, List.mem_cons] at h
          exact (h.resolve_right hn).symm
        show slookup (copyInto (sinsert f.name f.content d) fs) n =
          slookup (copyInto (sinsert f.name f.content d2) fs) n
        rw [slookup_copyInto_not_mem _ _ _ hn, slookup_copyInto_not_mem _ _ _ hn,
          slookup_sinsert, slookup_sinsert, if_pos hfn.symm, if_pos hfn.symm]

/-- C10: in `CorregirJava.__init__`, the student ("orig") `.java` files are
copied into the flat `corr` directory before the skeleton ("skel") ones,
so for every file name occurring (at any depth) in both trees, the file in
`corr` after construction is the skeleton's version, never the
student's: its content is the content of a skeleton file of that name,
and it coincides with what copying the skeleton tree alone would leave. -/
theorem corr_skeleton_wins (alu pub : List SrcFile) (n : String)
    (h : n ∈ pub.map SrcFile.name) :
    slookup (corrAssemble alu pub) n = slookup (copyInto [] pub) n ∧
    ∃ f, f ∈ pub ∧ f.name = n ∧
      slookup (corrAssemble alu pub) n = some f.content := by
  refine ⟨slookup_copyInto_indep pub _ [] n h, ?_⟩
  exact slookup_copyInto_mem pub (copyInto [] alu) n h

/-- Witness for `corr_skeleton_wins`: a student `A.java` at the root and a
skeleton `A.java` in a subdirectory; `corr` ends up with the skeleton's
content. -/
theorem corr_skeleton_wins_witness :
    ("A.java" ∈ [SrcFile.mk ["sub"] "A.java" "skel"].map SrcFile.name) ∧
    slookup
      (corrAssemble [⟨[], "A.java", "student"⟩] [⟨["sub"], "A.java", "skel"⟩])
      "A.java" =
      slookup (copyInto [] [⟨["sub"], "A.java", "skel"⟩]) "A.java" ∧
    ∃ f, f ∈ [SrcFile.mk ["sub"] "A.java" "skel"] ∧ f.name = "A.java" ∧
      slookup
        (corrAssemble [⟨[], "A.java", "student"⟩] [⟨["sub"], "A.java", "skel"⟩])
        "A.java" = some f.content :=
  ⟨by decide,
    corr_skeleton_wins [⟨[], "A.java", "student"⟩] [⟨["sub"], "A.java", "skel"⟩]
      "A.java" (by decide)⟩

/-! ## Roster-miss behaviour (`update_repo`) -/

/-- C9 (amended): looking up a legajo absent from the roster makes
`update_repo` return normally with the `notFound` status — no exception,
so a batch driven by `mainLoop` still yields one entry per requested
legajo — and it prints the skip message only when `silent` is `False`;
`main` leaves `silent` at its default `True`, so the skip is silent there. -/
theorem update_repo_roster_miss (legajo : String) (rexists : Bool)
    (rows : List Row) (planilla : String) (silent : Bool)
    (h : rows.find? (fun r => r.legajo = legajo) = none) :
    (update_repo legajo rexists rows planilla silent).status = .notFound ∧
    (update_repo legajo rexists rows planilla silent).printed =
      (if silent then []
       else ["no se pudo encontrar legajo " ++ legajo ++ " en " ++ planilla]) ∧
    ∀ (legajos : List String) (ue re : String → Bool),
      (mainLoop legajos ue re rows planilla).map Prod.fst = legajos := by
  refine ⟨by simp [update_repo, h], by simp [update_repo, h], ?_⟩
  intro legajos ue re
  simp only [mainLoop, List.map_map]
  have : (Prod.fst ∘ fun lg =>
      if ue lg then
        (lg, some (update_repo lg (re lg) rows planilla true))
      else (lg, none)) = id := by
    funext lg
    by_cases hu : ue lg <;> simp [hu]
  rw [this, List.map_id]

/-- Witness for `update_repo_roster_miss` at a concrete roster without the
requested legajo. -/
theorem update_repo_roster_miss_witness :
    ([Row.mk "8" "ghacct" ""].find? (fun r => r.legajo = "7") = none) ∧
    ((update_repo "7" true [⟨"8", "ghacct", ""⟩] "fiubatp.tsv" true).status =
      .notFound ∧
    (update_repo "7" true [⟨"8", "ghacct", ""⟩] "fiubatp.tsv" true).printed =
      (if true then []
       else ["no se pudo encontrar legajo " ++ "7" ++ " en " ++ "fiubatp.tsv"]) ∧
    ∀ (legajos : List String) (ue re : String → Bool),
      (mainLoop legajos ue re [⟨"8", "ghacct", ""⟩] "fiubatp.tsv").map
        Prod.fst = legajos) :=
  ⟨by decide,
    update_repo_roster_miss "7" true [⟨"8", "ghacct", ""⟩] "fiubatp.tsv" true
      (by decide)⟩

/-- C9 (counterexample to the claim as stated): `main` requests legajos
explicitly by name but calls `update_repo` with `silent` left at its
default `True`, so a roster miss for an explicitly requested legajo prints
nothing at all — it is not "reported with a message". -/
theorem mainLoop_explicit_request_silent_cex :
    mainLoop ["7"] (fun _ => true) (fun _ => true) [] "fiubatp.tsv" =
      [("7", some { printed := [], status := .notFound })] ∧
    (update_repo "7" true [] "fiubatp.tsv" true).printed = [] :=
  ⟨rfl, rfl⟩

/-! ## The report is always rendered (`CorregirJava.run`) -/

/-- C8: every invocation of `CorregirJava.run` writes exactly one rendered
report — the template applied to the final per-step outcomes and reject
flag — to standard output and flushes it, whatever the step results are,
including an unexpected fault interrupting the loop (`exec` ranges over
all step behaviours, faults included). -/
theorem run_always_renders (exec : String → StepRes)
    (render : List (String × Option ResultTuple) → Bool → String) :
    (CorregirJava_run exec render).stdoutWrites =
      [render (CorregirJava_run exec render).outcomes
        (CorregirJava_run exec render).reject] ∧
    (CorregirJava_run exec render).flushed = true :=
  ⟨rfl, rfl⟩

/-! ## No-op when nothing is pending (`update_branch`) -/

/-- C6: when every upstream delivery commit for the path has an authored
timestamp at most the branch tip's, `update_branch` creates no commit,
performs no checkout, leaves branch history, index and working tree
unchanged (the returned state is the input state), and prints
"nothing to do" after the per-student progress line. -/
theorem update_branch_noop (st : RepoState) (workdir : String)
    (watermark : Int) (upstreamLog : List UCommit)
    (relpath subdir : List String) (ghuser : String)
    (h : ∀ c ∈ upstreamLog, c.authored_date ≤ watermark) :
    update_branch st workdir watermark upstreamLog relpath subdir ghuser =
      ⟨st, ["Processing " ++ workdir ++ "...", "nothing to do"], [],
        false, false⟩ := by
  have hp : upstreamLog.filter
      (fun c => watermark < c.authored_date) = [] := by
    rw [List.filter_eq_nil_iff]
    intro c hc
    simpa using h c hc
  simp [update_branch, hp]

/-- Witness for `update_branch_noop`: one delivery commit authored at 5
against a watermark of 10. -/
theorem update_branch_noop_witness :
    (∀ c ∈ [UCommit.mk 5 0 "m" (.tree .nil)],
      c.authored_date ≤ (10 : Int)) ∧
    update_branch ⟨.tree .nil, .tree .nil, .tree .nil, []⟩ "repo" 10
        [⟨5, 0, "m", .tree .nil⟩] ["d"] ["tp0"] "gh" =
      ⟨⟨.tree .nil, .tree .nil, .tree .nil, []⟩,
        ["Processing " ++ "repo" ++ "...", "nothing to do"], [],
        false, false⟩ :=
  ⟨by decide,
    update_branch_noop ⟨.tree .nil, .tree .nil, .tree .nil, []⟩ "repo" 10
      [⟨5, 0, "m", .tree .nil⟩] ["d"] ["tp0"] "gh" (by decide)⟩

/-! ## Short-circuiting build pipeline (`CorregirJava.run`) -/

/-- C7: with the three build invocations completing (no fault), the
targets are attempted in the fixed order compilar, validar_api,
pruebas_basicas up to and including the first one with a non-zero exit
code; the targets after it are never invoked and keep their `None`
outcome; the failing target's outcome records failure with its captured
output; and the reject flag is true exactly when some attempted target
fails. -/
theorem run_short_circuit (exec : String → StepRes)
    (render : List (String × Option ResultTuple) → Bool → String)
    (rc1 rc2 rc3 : Int) (o1 o2 o3 : String)
    (h1 : exec "compilar" = .ok rc1 o1)
    (h2 : exec "validar_api" = .ok rc2 o2)
    (h3 : exec "pruebas_basicas" = .ok rc3 o3) :
    (CorregirJava_run exec render).attempted =
      (if rc1 = 0 then
        if rc2 = 0 then ["compilar", "validar_api", "pruebas_basicas"]
        else ["compilar", "validar_api"]
       else ["compilar"]) ∧
    (rc1 ≠ 0 → (CorregirJava_run exec render).outcomes =
      [("compilar", some ⟨false, o1⟩), ("validar_api", none),
        ("pruebas_basicas", none)]) ∧
    (rc1 = 0 → rc2 ≠ 0 → (CorregirJava_run exec render).outcomes =
      [("compilar", some ⟨true, o1⟩), ("validar_api", some ⟨false, o2⟩),
        ("pruebas_basicas", none)]) ∧
    (rc1 = 0 → rc2 = 0 → (CorregirJava_run exec render).outcomes =
      [("compilar", some ⟨true, o1⟩), ("validar_api", some ⟨true, o2⟩),
        ("pruebas_basicas", some ⟨decide (rc3 = 0), o3⟩)]) ∧
    ((CorregirJava_run exec render).reject = true ↔
      ¬(rc1 = 0 ∧ rc2 = 0 ∧ rc3 = 0)) := by
  by_cases hc1 : rc1 = 0 <;> by_cases hc2 : rc2 = 0 <;>
    by_cases hc3 : rc3 = 0 <;>
    simp [CorregirJava_run, runLoop, javaSteps, setOutcome, h1, h2, h3,
      hc1, hc2, hc3]

/-! ## Missing destination subdirectory (`overwrite_files`) -/

/-- C4 (amended): when the destination's current tree does not contain the
target subdirectory, `old_tree.join(path)` raises `KeyError` (modelled
`none`), so the merge does not complete; the destination subtree is not
treated as empty. -/
theorem overwrite_files_missing_subdir (destRoot srcTree : GObj)
    (subdir : List String) (hsub : subdir ≠ [])
    (h : joinPath destRoot subdir = none) :
    overwrite_files destRoot srcTree subdir = none := by
  cases srcTree <;> simp [overwrite_files, hsub, h]

/-- Witness for `overwrite_files_missing_subdir`: a destination with only
a root `README` and target subdirectory `tp0`. -/
theorem overwrite_files_missing_subdir_witness :
    ((["tp0"] : List String) ≠ []) ∧
    (joinPath (.tree (.cons "README" 33188 (.blob 9) .nil)) ["tp0"] = none) ∧
    overwrite_files (.tree (.cons "README" 33188 (.blob 9) .nil))
      (.tree .nil) ["tp0"] = none :=
  ⟨by decide, by decide,
    overwrite_files_missing_subdir
      (.tree (.cons "README" 33188 (.blob 9) .nil)) (.tree .nil) ["tp0"]
      (by decide) (by decide)⟩

/-- C4 (counterexample to the claim as stated): with a destination tree
not containing `tp0`, the merge returns `none` (the `KeyError` path); it
does not complete with the source snapshot's files under `tp0`. -/
theorem overwrite_files_missing_subdir_cex :
    overwrite_files (.tree (.cons "README" 33188 (.blob 9) .nil))
      (.tree (.cons "a.java" 33188 (.blob 1) .nil)) ["tp0"] = none ∧
    overwrite_files (.tree (.cons "README" 33188 (.blob 9) .nil))
      (.tree (.cons "a.java" 33188 (.blob 1) .nil)) ["tp0"] ≠
      some (traverseEnts ["tp0"] (.cons "a.java" 33188 (.blob 1) .nil)) := by
  decide

/-- Witness for `run_short_circuit` in the spec's scenario: compilar
succeeds, validar_api fails, pruebas_basicas would succeed but is never
reached. -/
theorem run_short_circuit_witness :
    (stepOracle "compilar" = .ok 0 "ok1") ∧
    ((CorregirJava_run stepOracle (fun _ _ => "report")).attempted =
      (if (0 : Int) = 0 then
        if (1 : Int) = 0 then ["compilar", "validar_api", "pruebas_basicas"]
        else ["compilar", "validar_api"]
       else ["compilar"]) ∧
    ((0 : Int) ≠ 0 →
      (CorregirJava_run stepOracle (fun _ _ => "report")).outcomes =
      [("compilar", some ⟨false, "ok1"⟩), ("validar_api", none),
        ("pruebas_basicas", none)]) ∧
    ((0 : Int) = 0 → (1 : Int) ≠ 0 →
      (CorregirJava_run stepOracle (fun _ _ => "report")).outcomes =
      [("compilar", some ⟨true, "ok1"⟩), ("validar_api", some ⟨false, "bad"⟩),
        ("pruebas_basicas", none)]) ∧
    ((0 : Int) = 0 → (1 : Int) = 0 →
      (CorregirJava_run stepOracle (fun _ _ => "report")).outcomes =
      [("compilar", some ⟨true, "ok1"⟩), ("validar_api", some ⟨true, "bad"⟩),
        ("pruebas_basicas", some ⟨decide ((0 : Int) = 0), "unused"⟩)]) ∧
    ((CorregirJava_run stepOracle (fun _ _ => "report")).reject = true ↔
      ¬((0 : Int) = 0 ∧ (1 : Int) = 0 ∧ (0 : Int) = 0))) :=
  ⟨by decide,
    run_short_circuit stepOracle (fun _ _ => "report") 0 1 0 "ok1" "bad"
      "unused" (by decide) (by decide) (by decide)⟩

/-! ## Provenance of replayed commits (`update_branch`) -/

theorem pyTz_spec_agree_nonneg (n : Nat) :
    pyTzString (n : Int) = specTzString (n : Int) := by
  have h1 : ((n : Int)).fdiv 3600 = ((n / 3600 : Nat) : Int) := by
    simpa using (Int.ofNat_fdiv n 3600).symm
  have h2 : ((n : Int)).fmod 3600 = ((n % 3600 : Nat) : Int) := by
    simpa using (Int.ofNat_fmod n 3600).symm
  have h3 : (((n % 3600 : Nat) : Int)).fdiv 60 =
      ((n % 3600 / 60 : Nat) : Int) := by
    simpa using (Int.ofNat_fdiv (n % 3600) 60).symm
  have e1 : ¬ (((n / 3600 : Nat) : Int) < 0) :=
    (Int.natCast_nonneg _).not_lt
  have e2 : ¬ ((n : Int) < 0) := (Int.natCast_nonneg _).not_lt
  simp only [pyTzString, specTzString, h1, h2, h3, if_neg e1, if_neg e2,
    Int.natAbs_ofNat, Int.toNat_natCast]

/-- The `±HHMM` reconstruction in `update_branch` agrees with the spec's
reading of the offset exactly on non-negative offsets and whole-hour
offsets. -/
theorem pyTz_spec_agree (off : Int)
    (h : 0 ≤ off ∨ off.fmod 3600 = 0) : pyTzString off = specTzString off := by
  by_cases hpos : 0 ≤ off
  · obtain ⟨n, rfl⟩ := Int.eq_ofNat_of_zero_le hpos
    exact pyTz_spec_agree_nonneg n
  · have hfm : off.fmod 3600 = 0 := by
      rcases h with h | h
      · exact absurd h hpos
      · exact h
    push_neg at hpos
    have hdecomp := Int.fmod_add_fdiv off 3600
    rw [hfm] at hdecomp
    have hq : off = 3600 * off.fdiv 3600 := by omega
    have hqneg : off.fdiv 3600 < 0 := by omega
    have hm : (off.fmod 3600).fdiv 60 = 0 := by rw [hfm]; rfl
    have hna : off.natAbs = 3600 * (off.fdiv 3600).natAbs := by
      conv_lhs => rw [hq]
      rw [Int.natAbs_mul]
      norm_num
    simp only [pyTzString, specTzString, hm, hna, if_pos hqneg, if_pos hpos]
    have hdiv : 3600 * (off.fdiv 3600).natAbs / 3600 = (off.fdiv 3600).natAbs :=
      Nat.mul_div_cancel_left _ (by norm_num)
    have hmod : 3600 * (off.fdiv 3600).natAbs % 3600 = 0 :=
      Nat.mul_mod_right 3600 _
    rw [hdiv, hmod]
    norm_num

theorem replayLoop_applied_form (relpath subdir : List String)
    (ghuser : String) :
    ∀ (cs : List UCommit) (st : RepoState) (p : UCommit × NewCommit),
      p ∈ (replayLoop relpath subdir ghuser st cs).2.1 →
      ∃ es, p.2 = mkNewCommit ghuser p.1 es := by
  intro cs
  induction cs with
  | nil => intro st p hp; simp [replayLoop] at hp
  | cons c rest ih =>
      intro st p hp
      cases hj : joinPath c.tree relpath with
      | none => simp [replayLoop, hj] at hp
      | some entrega =>
          cases ho : overwrite_files st.headTree entrega subdir with
          | none => simp [replayLoop, hj, ho] at hp
          | some entries =>
              simp only [replayLoop, hj, ho, List.mem_cons] at hp
              rcases hp with rfl | hp
              · exact ⟨entries, rfl⟩
              · exact ih _ p hp

theorem update_branch_applied_form (st : RepoState) (workdir : String)
    (watermark : Int) (log : List UCommit) (relpath subdir : List String)
    (ghuser : String) (p : UCommit × NewCommit)
    (hmem : p ∈ (update_branch st workdir watermark log relpath subdir
      ghuser).applied) :
    ∃ es, p.2 = mkNewCommit ghuser p.1 es := by
  by_cases hpe :
      (log.filter (fun c => watermark < c.authored_date)).isEmpty
  · simp [update_branch, hpe] at hmem
  · simp only [update_branch, hpe, Bool.false_eq_true, if_false] at hmem
    exact replayLoop_applied_form relpath subdir ghuser _ _ p hmem

/-- C5 (amended): every commit replayed by `update_branch` has author and
committer identity both set to the resolved account, the message copied
verbatim, and authored and committed date both set to the original
commit's authored unix-seconds followed by
`f"{off // 3600:+03}{off % 3600 // 60:02}"`; that floor-division rendering
equals the signed `±HHMM` rendering of the offset whenever the offset is
non-negative or a whole number of hours (for negative non-whole-hour
offsets it does not — see the counterexample). -/
theorem update_branch_provenance (st : RepoState) (workdir : String)
    (watermark : Int) (log : List UCommit) (relpath subdir : List String)
    (ghuser : String) (c : UCommit) (nc : NewCommit)
    (hmem : (c, nc) ∈ (update_branch st workdir watermark log relpath subdir
      ghuser).applied) :
    nc.authorName = ghuser ∧
    nc.committerName = ghuser ∧
    nc.authorEmail = ghuser ++ "@users.noreply.github.com" ∧
    nc.committerEmail = nc.authorEmail ∧
    nc.message = c.message ∧
    nc.author_date = pyDateString c.authored_date c.author_tz_offset ∧
    nc.commit_date = nc.author_date ∧
    ((0 ≤ c.author_tz_offset ∨ c.author_tz_offset.fmod 3600 = 0) →
      pyTzString c.author_tz_offset = specTzString c.author_tz_offset) := by
  obtain ⟨es, hes⟩ := update_branch_applied_form st workdir watermark log
    relpath subdir ghuser (c, nc) hmem
  have hes2 : nc = mkNewCommit ghuser c es := hes
  subst hes2
  exact ⟨rfl, rfl, rfl, rfl, rfl, rfl, rfl, pyTz_spec_agree _⟩

/-- Witness for `update_branch_provenance`: one pending delivery commit
(authored 100, offset +19800 seconds) replayed onto a repository whose
tree has an empty `tp0` directory. -/
theorem update_branch_provenance_witness :
    ((⟨100, 19800, "m",
        .tree (.cons "d" 16384
          (.tree (.cons "a.java" 33188 (.blob 1) .nil)) .nil)⟩,
      mkNewCommit "gh"
        ⟨100, 19800, "m",
          .tree (.cons "d" 16384
            (.tree (.cons "a.java" 33188 (.blob 1) .nil)) .nil)⟩
        [⟨1, 33188, ["tp0", "a.java"]⟩]) ∈
      (update_branch
        ⟨.tree (.cons "tp0" 16384 (.tree .nil) .nil),
          .tree (.cons "tp0" 16384 (.tree .nil) .nil),
          .tree (.cons "tp0" 16384 (.tree .nil) .nil), []⟩
        "r" 0
        [⟨100, 19800, "m",
          .tree (.cons "d" 16384
            (.tree (.cons "a.java" 33188 (.blob 1) .nil)) .nil)⟩]
        ["d"] ["tp0"] "gh").applied) ∧
    ((mkNewCommit "gh"
        ⟨100, 19800, "m",
          .tree (.cons "d" 16384
            (.tree (.cons "a.java" 33188 (.blob 1) .nil)) .nil)⟩
        [⟨1, 33188, ["tp0", "a.java"]⟩]).authorName = "gh" ∧
      (mkNewCommit "gh"
        ⟨100, 19800, "m",
          .tree (.cons "d" 16384
            (.tree (.cons "a.java" 33188 (.blob 1) .nil)) .nil)⟩
        [⟨1, 33188, ["tp0", "a.java"]⟩]).committerName = "gh" ∧
      (mkNewCommit "gh"
        ⟨100, 19800, "m",
          .tree (.cons "d" 16384
            (.tree (.cons "a.java" 33188 (.blob 1) .nil)) .nil)⟩
        [⟨1, 33188, ["tp0", "a.java"]⟩]).authorEmail =
        "gh" ++ "@users.noreply.github.com" ∧
      (mkNewCommit "gh"
        ⟨100, 19800, "m",
          .tree (.cons "d" 16384
            (.tree (.cons "a.java" 33188 (.blob 1) .nil)) .nil)⟩
        [⟨1, 33188, ["tp0", "a.java"]⟩]).committerEmail =
        (mkNewCommit "gh"
          ⟨100, 19800, "m",
            .tree (.cons "d" 16384
              (.tree (.cons "a.java" 33188 (.blob 1) .nil)) .nil)⟩
          [⟨1, 33188, ["tp0", "a.java"]⟩]).authorEmail ∧
      (mkNewCommit "gh"
        ⟨100, 19800, "m",
          .tree (.cons "d" 16384
            (.tree (.cons "a.java" 33188 (.blob 1) .nil)) .nil)⟩
        [⟨1, 33188, ["tp0", "a.java"]⟩]).message =
        (UCommit.mk 100 19800 "m"
          (.tree (.cons "d" 16384
            (.tree (.cons "a.java" 33188 (.blob 1) .nil)) .nil))).message ∧
      (mkNewCommit "gh"
        ⟨100, 19800, "m",
          .tree (.cons "d" 16384
            (.tree (.cons "a.java" 33188 (.blob 1) .nil)) .nil)⟩
        [⟨1, 33188, ["tp0", "a.java"]⟩]).author_date =
        pyDateString (UCommit.mk 100 19800 "m"
          (.tree (.cons "d" 16384
            (.tree (.cons "a.java" 33188 (.blob 1) .nil)) .nil))).authored_date
          (UCommit.mk 100 19800 "m"
            (.tree (.cons "d" 16384
              (.tree (.cons "a.java" 33188 (.blob 1) .nil))
                .nil))).author_tz_offset ∧
      (mkNewCommit "gh"
        ⟨100, 19800, "m",
          .tree (.cons "d" 16384
            (.tree (.cons "a.java" 33188 (.blob 1) .nil)) .nil)⟩
        [⟨1, 33188, ["tp0", "a.java"]⟩]).commit_date =
        (mkNewCommit "gh"
          ⟨100, 19800, "m",
            .tree (.cons "d" 16384
              (.tree (.cons "a.java" 33188 (.blob 1) .nil)) .nil)⟩
          [⟨1, 33188, ["tp0", "a.java"]⟩]).author_date ∧
      ((0 ≤ (UCommit.mk 100 19800 "m"
          (.tree (.cons "d" 16384
            (.tree (.cons "a.java" 33188 (.blob 1) .nil))
              .nil))).author_tz_offset ∨
        (UCommit.mk 100 19800 "m"
          (.tree (.cons "d" 16384
            (.tree (.cons "a.java" 33188 (.blob 1) .nil))
              .nil))).author_tz_offset.fmod 3600 = 0) →
        pyTzString (UCommit.mk 100 19800 "m"
          (.tree (.cons "d" 16384
            (.tree (.cons "a.java" 33188 (.blob 1) .nil))
              .nil))).author_tz_offset =
          specTzString (UCommit.mk 100 19800 "m"
            (.tree (.cons "d" 16384
              (.tree (.cons "a.java" 33188 (.blob 1) .nil))
                .nil))).author_tz_offset)) :=
  ⟨by decide,
    update_branch_provenance
      ⟨.tree (.cons "tp0" 16384 (.tree .nil) .nil),
        .tree (.cons "tp0" 16384 (.tree .nil) .nil),
        .tree (.cons "tp0" 16384 (.tree .nil) .nil), []⟩
      "r" 0
      [⟨100, 19800, "m",
        .tree (.cons "d" 16384
          (.tree (.cons "a.java" 33188 (.blob 1) .nil)) .nil)⟩]
      ["d"] ["tp0"] "gh"
      ⟨100, 19800, "m",
        .tree (.cons "d" 16384
          (.tree (.cons "a.java" 33188 (.blob 1) .nil)) .nil)⟩
      (mkNewCommit "gh"
        ⟨100, 19800, "m",
          .tree (.cons "d" 16384
            (.tree (.cons "a.java" 33188 (.blob 1) .nil)) .nil)⟩
        [⟨1, 33188, ["tp0", "a.java"]⟩])
      (by decide)⟩

/-! ## Lemmas about the path-keyed dict of `merged_entries` -/

theorem dlookup_dinsert (k : List String) (v : TEntry)
    (d : List (List String × TEntry)) (k2 : List String) :
    dlookup (dinsert k v d) k2 =
      if k2 = k then some v else dlookup d k2 := by
  induction d with
  | nil =>
      by_cases h : k2 = k
      · simp [dinsert, dlookup, h]
      · simp [dinsert, dlookup, h, Ne.symm h]
  | cons hd tl ih =>
      obtain ⟨ka, va⟩ := hd
      by_cases h1 : ka = k
      · subst h1
        by_cases h2 : k2 = ka
        · simp [dinsert, dlookup, h2]
        · simp [dinsert, dlookup, h2, Ne.symm h2]
      · by_cases h2 : ka = k2
        · subst h2
          simp [dinsert, dlookup, h1, fun hh : ka = k => h1 hh]
        · simp [dinsert, dlookup, h1, h2, ih]

theorem dinsert_nil (k : List String) (v : TEntry) :
    dinsert k v [] = [(k, v)] := rfl

theorem dinsert_cons_pos (k : List String) (v va : TEntry)
    (tl : List (List String × TEntry)) :
    dinsert k v ((k, va) :: tl) = (k, v) :: tl := by
  simp only [dinsert, if_true]

theorem dinsert_cons_neg (k : List String) (v : TEntry) (ka : List String)
    (va : TEntry) (tl : List (List String × TEntry)) (h : ka ≠ k) :
    dinsert k v ((ka, va) :: tl) = (ka, va) :: dinsert k v tl := by
  simp only [dinsert]
  rw [if_neg h]

theorem mem_dinsert (k : List String) (v : TEntry)
    (d : List (List String × TEntry)) (kv : List String × TEntry)
    (h : kv ∈ dinsert k v d) : kv = (k, v) ∨ kv ∈ d := by
  induction d with
  | nil =>
      rw [dinsert_nil, List.mem_singleton] at h
      exact Or.inl h
  | cons hd tl ih =>
      obtain ⟨ka, va⟩ := hd
      by_cases h1 : ka = k
      · subst h1
        rw [dinsert_cons_pos, List.mem_cons] at h
        cases h with
        | inl h2 => exact Or.inl h2
        | inr h2 => exact Or.inr (List.mem_cons_of_mem _ h2)
      · rw [dinsert_cons_neg _ _ _ _ _ h1, List.mem_cons] at h
        cases h with
        | inl h2 =>
            exact Or.inr (by rw [h2]; exact List.mem_cons_self _ _)
        | inr h2 =>
            cases ih h2 with
            | inl h3 => exact Or.inl h3
            | inr h3 => exact Or.inr (List.mem_cons_of_mem _ h3)

theorem dinsert_keys (k : List String) (v : TEntry)
    (d : List (List String × TEntry)) :
    (dinsert k v d).map Prod.fst =
      if k ∈ d.map Prod.fst then d.map Prod.fst
      else d.map Prod.fst ++ [k] := by
  induction d with
  | nil =>
      rw [dinsert_nil, if_neg (by rw [List.map_nil]; exact List.not_mem_nil _)]
      rfl
  | cons hd tl ih =>
      obtain ⟨ka, va⟩ := hd
      by_cases h1 : ka = k
      · subst h1
        rw [dinsert_cons_pos,
          if_pos (by rw [List.map_cons]; exact List.mem_cons_self _ _)]
        rfl
      · rw [dinsert_cons_neg _ _ _ _ _ h1]
        simp only [List.map_cons]
        rw [ih]
        by_cases h2 : k ∈ tl.map Prod.fst
        · rw [if_pos h2, if_pos (List.mem_cons_of_mem _ h2)]
        · have hn : k ∉ ka :: tl.map Prod.fst := by
            rw [List.mem_cons]
            rintro (h3 | h3)
            · exact h1 h3.symm
            · exact h2 h3
          rw [if_neg h2, if_neg hn, List.cons_append]

theorem dinsert_keys_nodup (k : List String) (v : TEntry)
    (d : List (List String × TEntry)) (h : (d.map Prod.fst).Nodup) :
    ((dinsert k v d).map Prod.fst).Nodup := by
  rw [dinsert_keys]
  by_cases hm : k ∈ d.map Prod.fst
  · simpa [hm] using h
  · rw [if_neg hm, List.nodup_append]
    refine ⟨h, List.nodup_singleton _, ?_⟩
    intro a ha hb
    rw [List.mem_singleton] at hb
    subst hb
    exact hm ha

theorem dinsert_snd_path (k : List String) (v : TEntry)
    (d : List (List String × TEntry)) (hv : v.path = k)
    (hd : ∀ kv ∈ d, ((kv : List String × TEntry).2).path = kv.1) :
    ∀ kv ∈ dinsert k v d, ((kv : List String × TEntry).2).path = kv.1 := by
  intro kv hkv
  rcases mem_dinsert k v d kv hkv with h | h
  · rw [h]
    exact hv
  · exact hd kv h

theorem dlookup_dbuild_not_mem (es : List TEntry)
    (d : List (List String × TEntry)) (p : List String)
    (h : p ∉ es.map TEntry.path) :
    dlookup (dbuild d es) p = dlookup d p := by
  induction es generalizing d with
  | nil => rfl
  | cons e es ih =>
      simp only [List.map_cons, List.mem_cons, not_or] at h
      show dlookup (dbuild (dinsert e.path e d) es) p = _
      rw [ih _ h.2, dlookup_dinsert, if_neg h.1]

theorem dlookup_dbuild_mem (es : List TEntry)
    (d : List (List String × TEntry)) (e : TEntry)
    (hnodup : (es.map TEntry.path).Nodup) (he : e ∈ es) :
    dlookup (dbuild d es) e.path = some e := by
  induction es generalizing d with
  | nil => simp at he
  | cons f es ih =>
      simp only [List.map_cons, List.nodup_cons] at hnodup
      rcases List.mem_cons.mp he with rfl | he2
      · show dlookup (dbuild (dinsert e.path e d) es) e.path = some e
        rw [dlookup_dbuild_not_mem es _ _ hnodup.1, dlookup_dinsert,
          if_pos rfl]
      · exact ih _ hnodup.2 he2

theorem mem_of_dlookup_eq_some (d : List (List String × TEntry))
    (k : List String) (v : TEntry) (h : dlookup d k = some v) :
    (k, v) ∈ d := by
  induction d with
  | nil => simp [dlookup] at h
  | cons hd tl ih =>
      obtain ⟨ka, va⟩ := hd
      by_cases h1 : ka = k
      · subst h1
        rw [dlookup, if_pos rfl, Option.some.injEq] at h
        subst h
        exact List.mem_cons_self _ _
      · rw [dlookup, if_neg h1] at h
        exact List.mem_cons_of_mem _ (ih h)

theorem mem_dbuild (es : List TEntry) (d : List (List String × TEntry))
    (kv : List String × TEntry) (h : kv ∈ dbuild d es) :
    kv ∈ d ∨ kv.2 ∈ es := by
  induction es generalizing d with
  | nil => exact Or.inl h
  | cons e es ih =>
      rcases ih (dinsert e.path e d) h with h2 | h2
      · rcases mem_dinsert _ _ _ _ h2 with h3 | h3
        · refine Or.inr ?_
          rw [h3]
          exact List.mem_cons_self _ _
        · exact Or.inl h3
      · exact Or.inr (List.mem_cons_of_mem _ h2)

theorem dbuild_snd_path (es : List TEntry) (d : List (List String × TEntry))
    (hd : ∀ kv ∈ d, ((kv : List String × TEntry).2).path = kv.1) :
    ∀ kv ∈ dbuild d es, ((kv : List String × TEntry).2).path = kv.1 := by
  induction es generalizing d with
  | nil => exact hd
  | cons e es ih =>
      exact ih (dinsert e.path e d) (dinsert_snd_path _ _ _ rfl hd)

theorem dbuild_keys_nodup (es : List TEntry)
    (d : List (List String × TEntry)) (h : (d.map Prod.fst).Nodup) :
    ((dbuild d es).map Prod.fst).Nodup := by
  induction es generalizing d with
  | nil => exact h
  | cons e es ih =>
      exact ih (dinsert e.path e d) (dinsert_keys_nodup _ _ _ h)

/-! ## Membership in `merged_entries` -/

theorem mem_merged_entries_iff (old new : List TEntry) (e : TEntry) :
    e ∈ merged_entries old new ↔
      ∃ k, (k, e) ∈ dbuild (dbuild [] old) new := by
  simp only [merged_entries]
  constructor
  · intro h
    obtain ⟨⟨k1, v1⟩, hkv, rfl⟩ := List.mem_map.mp h
    exact ⟨k1, ((List.perm_insertionSort _ _).mem_iff).mp hkv⟩
  · rintro ⟨k, hk⟩
    exact List.mem_map.mpr
      ⟨(k, e), ((List.perm_insertionSort _ _).mem_iff).mpr hk, rfl⟩

theorem mem_merged_entries_of_old (old new : List TEntry) (e : TEntry)
    (hnodup : (old.map TEntry.path).Nodup) (he : e ∈ old)
    (hnot : e.path ∉ new.map TEntry.path) :
    e ∈ merged_entries old new := by
  have h1 : dlookup (dbuild (dbuild [] old) new) e.path = some e := by
    rw [dlookup_dbuild_not_mem new _ _ hnot]
    exact dlookup_dbuild_mem old [] e hnodup he
  exact (mem_merged_entries_iff _ _ _).mpr
    ⟨e.path, mem_of_dlookup_eq_some _ _ _ h1⟩

theorem mem_merged_entries_of_new (old new : List TEntry) (e : TEntry)
    (hnodup : (new.map TEntry.path).Nodup) (he : e ∈ new) :
    e ∈ merged_entries old new := by
  have h1 : dlookup (dbuild (dbuild [] old) new) e.path = some e :=
    dlookup_dbuild_mem new _ e hnodup he
  exact (mem_merged_entries_iff _ _ _).mpr
    ⟨e.path, mem_of_dlookup_eq_some _ _ _ h1⟩

theorem mem_merged_entries_src (old new : List TEntry) (e : TEntry)
    (he : e ∈ merged_entries old new) : e ∈ old ∨ e ∈ new := by
  obtain ⟨k, hk⟩ := (mem_merged_entries_iff _ _ _).mp he
  rcases mem_dbuild _ _ _ hk with h2 | h2
  · rcases mem_dbuild _ _ _ h2 with h3 | h3
    · simp at h3
    · exact Or.inl h3
  · exact Or.inr h2

theorem merged_entries_paths_nodup (old new : List TEntry) :
    ((merged_entries old new).map TEntry.path).Nodup := by
  simp only [merged_entries]
  rw [List.map_map]
  have hsp : ∀ kv ∈ List.insertionSort
      (fun a b => pathLtB b.1 a.1 = false) (dbuild (dbuild [] old) new),
      (TEntry.path ∘ Prod.snd) kv = Prod.fst kv := by
    intro kv hkv
    exact dbuild_snd_path new _ (dbuild_snd_path old [] (by simp)) kv
      (((List.perm_insertionSort _ _).mem_iff).mp hkv)
  rw [List.map_congr_left hsp]
  have hperm := (List.perm_insertionSort
    (fun (a b : List String × TEntry) => pathLtB b.1 a.1 = false)
    (dbuild (dbuild [] old) new)).map Prod.fst
  exact hperm.nodup_iff.mpr
    (dbuild_keys_nodup new _ (dbuild_keys_nodup old [] (by simp)))

/-! ## Replay selection and ordering (`update_branch`) -/

theorem replayLoop_fst (relpath subdir : List String) (ghuser : String) :
    ∀ (cs : List UCommit) (st : RepoState),
      (replayLoop relpath subdir ghuser st cs).2.2 = false →
      (replayLoop relpath subdir ghuser st cs).2.1.map Prod.fst = cs := by
  intro cs
  induction cs with
  | nil => intro st _; rfl
  | cons c rest ih =>
      intro st hf
      cases hj : joinPath c.tree relpath with
      | none => simp [replayLoop, hj] at hf
      | some entrega =>
          cases ho : overwrite_files st.headTree entrega subdir with
          | none => simp [replayLoop, hj, ho] at hf
          | some entries =>
              simp only [replayLoop, hj, ho] at hf ⊢
              simp only [List.map_cons]
              rw [ih _ hf]

theorem replayLoop_history (relpath subdir : List String) (ghuser : String) :
    ∀ (cs : List UCommit) (st : RepoState),
      (replayLoop relpath subdir ghuser st cs).1.history =
        st.history ++ (replayLoop relpath subdir ghuser st cs).2.1.map
          Prod.snd := by
  intro cs
  induction cs with
  | nil => intro st; simp [replayLoop]
  | cons c rest ih =>
      intro st
      cases hj : joinPath c.tree relpath with
      | none => simp [replayLoop, hj]
      | some entrega =>
          cases ho : overwrite_files st.headTree entrega subdir with
          | none => simp [replayLoop, hj, ho]
          | some entries =>
              simp only [replayLoop, hj, ho, List.map_cons]
              rw [ih]
              simp

/-- C1 (amended): in a fault-free run, `update_branch` replays exactly the
upstream commits (touching the student's path) whose authored timestamp
exceeds the watermark, in reversed iteration order, creating one new
commit per pending commit, appended to the branch history in that order;
when the upstream iteration is newest-first by authored timestamp (git
log order with consistent authored dates), that replay order is
non-decreasing in authored timestamp (oldest pending first). -/
theorem update_branch_replay_order (st : RepoState) (workdir : String)
    (watermark : Int) (log : List UCommit) (relpath subdir : List String)
    (ghuser : String)
    (hfault : (update_branch st workdir watermark log relpath subdir
      ghuser).faulted = false)
    (hdesc : log.Pairwise (fun a b => b.authored_date ≤ a.authored_date)) :
    (update_branch st workdir watermark log relpath subdir
        ghuser).applied.map Prod.fst =
      (log.filter (fun c => watermark < c.authored_date)).reverse ∧
    ((update_branch st workdir watermark log relpath subdir
        ghuser).applied.map (fun p => p.1.authored_date)).Pairwise (· ≤ ·) ∧
    (update_branch st workdir watermark log relpath subdir
        ghuser).applied.length =
      (log.filter (fun c => watermark < c.authored_date)).length ∧
    (update_branch st workdir watermark log relpath subdir
        ghuser).state.history =
      st.history ++ (update_branch st workdir watermark log relpath subdir
        ghuser).applied.map Prod.snd := by
  have hpw : ((log.filter (fun c => watermark < c.authored_date)).reverse.map
      (fun c => c.authored_date)).Pairwise (· ≤ ·) := by
    rw [List.pairwise_map, List.pairwise_reverse]
    exact List.Pairwise.sublist (List.filter_sublist _) hdesc
  by_cases hpe : (log.filter (fun c => watermark < c.authored_date)).isEmpty
  · have hnil : log.filter (fun c => watermark < c.authored_date) = [] :=
      List.isEmpty_iff.mp hpe
    refine ⟨?_, ?_, ?_, ?_⟩ <;> simp [update_branch, hpe, hnil]
  · simp only [update_branch, hpe, Bool.false_eq_true, if_false] at hfault ⊢
    set A := (replayLoop relpath subdir ghuser
      ⟨st.headTree, st.headTree, st.headTree, st.history⟩
      (log.filter (fun c => watermark < c.authored_date)).reverse).2.1 with hA
    have hfst : A.map Prod.fst =
        (log.filter (fun c => watermark < c.authored_date)).reverse := by
      rw [hA]
      exact replayLoop_fst relpath subdir ghuser
        (log.filter (fun c => watermark < c.authored_date)).reverse
        ⟨st.headTree, st.headTree, st.headTree, st.history⟩ hfault
    refine ⟨hfst, ?_, ?_, ?_⟩
    · have hmm : A.map (fun p => p.1.authored_date) =
          (A.map Prod.fst).map (fun c => c.authored_date) := by
        rw [List.map_map]
        rfl
      rw [hmm, hfst]
      exact hpw
    · calc A.length = (A.map Prod.fst).length := (List.length_map _ _).symm
        _ = ((log.filter
            (fun c => watermark < c.authored_date)).reverse).length := by
          rw [hfst]
        _ = (log.filter (fun c => watermark < c.authored_date)).length :=
          List.length_reverse _
    · exact replayLoop_history relpath subdir ghuser _ _

/-- Witness for `update_branch_replay_order`: two pending commits
(authored 10 and 5) in newest-first iteration order over a watermark 0. -/
theorem update_branch_replay_order_witness :
    ((update_branch c1State "r" 0
        [⟨10, 0, "m2", c1Tree⟩, ⟨5, 0, "m1", c1Tree⟩] ["d"] ["tp0"]
        "gh").faulted = false) ∧
    (([⟨10, 0, "m2", c1Tree⟩,
        (⟨5, 0, "m1", c1Tree⟩ : UCommit)] : List UCommit).Pairwise
      (fun a b => b.authored_date ≤ a.authored_date)) ∧
    ((update_branch c1State "r" 0
        [⟨10, 0, "m2", c1Tree⟩, ⟨5, 0, "m1", c1Tree⟩] ["d"] ["tp0"]
        "gh").applied.map Prod.fst =
      (([⟨10, 0, "m2", c1Tree⟩,
          (⟨5, 0, "m1", c1Tree⟩ : UCommit)] : List UCommit).filter
        (fun c => 0 < c.authored_date)).reverse ∧
    ((update_branch c1State "r" 0
        [⟨10, 0, "m2", c1Tree⟩, ⟨5, 0, "m1", c1Tree⟩] ["d"] ["tp0"]
        "gh").applied.map (fun p => p.1.authored_date)).Pairwise (· ≤ ·) ∧
    (update_branch c1State "r" 0
        [⟨10, 0, "m2", c1Tree⟩, ⟨5, 0, "m1", c1Tree⟩] ["d"] ["tp0"]
        "gh").applied.length =
      (([⟨10, 0, "m2", c1Tree⟩,
          (⟨5, 0, "m1", c1Tree⟩ : UCommit)] : List UCommit).filter
        (fun c => 0 < c.authored_date)).length ∧
    (update_branch c1State "r" 0
        [⟨10, 0, "m2", c1Tree⟩, ⟨5, 0, "m1", c1Tree⟩] ["d"] ["tp0"]
        "gh").state.history =
      c1State.history ++ (update_branch c1State "r" 0
        [⟨10, 0, "m2", c1Tree⟩, ⟨5, 0, "m1", c1Tree⟩] ["d"] ["tp0"]
        "gh").applied.map Prod.snd) :=
  ⟨by decide, by decide,
    update_branch_replay_order c1State "r" 0
      [⟨10, 0, "m2", c1Tree⟩, ⟨5, 0, "m1", c1Tree⟩] ["d"] ["tp0"] "gh"
      (by decide) (by decide)⟩

/-- C1 (counterexample to the claim as stated): when the upstream
iteration order (git log order: commit-date/topological, newest first)
disagrees with the authored timestamps — as after a rebase or
cherry-pick, the very case the source marks `XXX Not robust enough` — the
pending commits are replayed in reversed iteration order, which is not
increasing authored-timestamp order: here the commit authored at 10 is
applied before the one authored at 5. -/
theorem update_branch_order_cex :
    ((update_branch c1State "r" 0
        [⟨5, 0, "m1", c1Tree⟩, ⟨10, 0, "m2", c1Tree⟩] ["d"] ["tp0"]
        "gh").applied.map (fun p => p.1.authored_date)) = [10, 5] ∧
    ¬ ((update_branch c1State "r" 0
        [⟨5, 0, "m1", c1Tree⟩, ⟨10, 0, "m2", c1Tree⟩] ["d"] ["tp0"]
        "gh").applied.map (fun p => p.1.authored_date)).Pairwise
      (· ≤ ·) := by
  decide

/-- C5 (counterexample to the claim as stated): for the negative
non-whole-hour offset -1800 seconds (UTC minus half an hour), the code
renders `-0130` — floor division makes the hour field -1 and the minute
field 30 — while the `±HHMM` rendering of -1800 is `-0030`; a replayed
commit with that offset carries the wrong timezone string, so the
rendering is not correct for every possible offset value. -/
theorem update_branch_tz_cex :
    ((update_branch
        ⟨.tree (.cons "tp0" 16384 (.tree .nil) .nil),
          .tree (.cons "tp0" 16384 (.tree .nil) .nil),
          .tree (.cons "tp0" 16384 (.tree .nil) .nil), []⟩
        "r" 0
        [⟨100, -1800, "m",
          .tree (.cons "d" 16384
            (.tree (.cons "a.java" 33188 (.blob 1) .nil)) .nil)⟩]
        ["d"] ["tp0"] "gh").applied.map (fun p => p.2.author_date)) =
      ["100 -0130"] ∧
    specTzString (-1800) = "-0030" ∧
    pyTzString (-1800) ≠ specTzString (-1800) := by
  decide

/-! ## The merge never deletes inside the subdirectory (`overwrite_files`) -/

/-- C2: paths present in the destination subtree but absent from the
source snapshot keep their entry (hash and mode) in the merged tree; every
source entry is in the merged tree (so shared paths carry exactly the
source's hash and mode — the result's paths are duplicate-free — and
source-only paths are added); and the merged tree holds nothing else. -/
theorem overwrite_files_no_deletion (destRoot srcTree : GObj)
    (subdir : List String) (oldItems srcItems : GEnts) (res : List TEntry)
    (hold : (if subdir = [] then some destRoot
      else joinPath destRoot subdir) = some (.tree oldItems))
    (hsrc : srcTree = .tree srcItems)
    (hres : overwrite_files destRoot srcTree subdir = some res)
    (hnodupO : ((traverseEnts subdir oldItems).map TEntry.path).Nodup)
    (hnodupN : ((traverseEnts subdir srcItems).map TEntry.path).Nodup) :
    (∀ e ∈ traverseEnts subdir oldItems,
      e.path ∉ (traverseEnts subdir srcItems).map TEntry.path → e ∈ res) ∧
    (∀ e ∈ traverseEnts subdir srcItems, e ∈ res) ∧
    (res.map TEntry.path).Nodup ∧
    (∀ e ∈ res, e ∈ traverseEnts subdir oldItems ∨
      e ∈ traverseEnts subdir srcItems) := by
  subst hsrc
  have hres2 : res = merged_entries (traverseEnts subdir oldItems)
      (traverseEnts subdir srcItems) := by
    simp only [overwrite_files, hold, Option.some.injEq] at hres
    exact hres.symm
  subst hres2
  refine ⟨?_, ?_, merged_entries_paths_nodup _ _, ?_⟩
  · intro e he hnot
    exact mem_merged_entries_of_old _ _ _ hnodupO he hnot
  · intro e he
    exact mem_merged_entries_of_new _ _ _ hnodupN he
  · intro e he
    exact mem_merged_entries_src _ _ _ he

/-- Witness for `overwrite_files_no_deletion`: the destination's `tp0`
holds `both` (hash 4) and `keep` (hash 3); the source holds `both`
(hash 5) and `new` (hash 6); the merge keeps `keep` at hash 3, takes the
source's `both` at hash 5, and adds `new`. -/
theorem overwrite_files_no_deletion_witness :
    ((if (["tp0"] : List String) = [] then some c2Dest
      else joinPath c2Dest ["tp0"]) = some (.tree c2OldItems)) ∧
    (c2Src = GObj.tree c2SrcItems) ∧
    (overwrite_files c2Dest c2Src ["tp0"] = some c2Res) ∧
    (((traverseEnts ["tp0"] c2OldItems).map TEntry.path).Nodup) ∧
    (((traverseEnts ["tp0"] c2SrcItems).map TEntry.path).Nodup) ∧
    ((∀ e ∈ traverseEnts ["tp0"] c2OldItems,
      e.path ∉ (traverseEnts ["tp0"] c2SrcItems).map TEntry.path →
        e ∈ c2Res) ∧
    (∀ e ∈ traverseEnts ["tp0"] c2SrcItems, e ∈ c2Res) ∧
    (c2Res.map TEntry.path).Nodup ∧
    (∀ e ∈ c2Res, e ∈ traverseEnts ["tp0"] c2OldItems ∨
      e ∈ traverseEnts ["tp0"] c2SrcItems)) :=
  ⟨by decide, by decide, by decide, by decide, by decide,
    overwrite_files_no_deletion c2Dest c2Src ["tp0"] c2OldItems c2SrcItems
      c2Res (by decide) (by decide) (by decide) (by decide) (by decide)⟩

/-! ## Every merged entry lies under the target subdirectory -/

mutual
theorem traverseEnts_path_shape (pref : List String) :
    (es : GEnts) → ∀ e ∈ traverseEnts pref es,
      ∃ r, r ≠ [] ∧ e.path = pref ++ r
  | .nil => by
      intro e he
      simp [traverseEnts] at he
  | .cons name mode obj rest => by
      intro e he
      simp only [traverseEnts, List.mem_append] at he
      rcases he with h | h
      · exact traverseObj_path_shape pref name mode obj e h
      · exact traverseEnts_path_shape pref rest e h

theorem traverseObj_path_shape (pref : List String) (name : String)
    (mode : Nat) :
    (obj : GObj) → ∀ e ∈ traverseObj pref name mode obj,
      ∃ r, r ≠ [] ∧ e.path = pref ++ r
  | .blob sha => by
      intro e he
      simp only [traverseObj, List.mem_singleton] at he
      subst he
      exact ⟨[name], by simp, rfl⟩
  | .tree items => by
      intro e he
      simp only [traverseObj] at he
      obtain ⟨r, hr, hpath⟩ := traverseEnts_path_shape (pref ++ [name])
        items e he
      refine ⟨name :: r, by simp, ?_⟩
      rw [hpath, List.append_assoc]
      rfl
end

/-- C3 (amended): with a non-empty target subdirectory, every entry of the
tree returned by the merge has a path under the subdirectory; the merge
result is built solely from the two prefixed traversals, so files of the
destination outside the subdirectory are absent from the returned root
tree rather than preserved. -/
theorem overwrite_files_only_subdir (destRoot srcTree : GObj)
    (subdir : List String) (res : List TEntry) (hsub : subdir ≠ [])
    (hres : overwrite_files destRoot srcTree subdir = some res) :
    ∀ e ∈ res, ∃ r, r ≠ [] ∧ e.path = subdir ++ r := by
  intro e he
  cases hjp : joinPath destRoot subdir with
  | none => cases srcTree <;> simp [overwrite_files, hsub, hjp] at hres
  | some oldT =>
      cases oldT with
      | blob sha =>
          cases srcTree <;> simp [overwrite_files, hsub, hjp] at hres
      | tree oldItems =>
          cases srcTree with
          | blob s2 => simp [overwrite_files, hsub, hjp] at hres
          | tree srcItems =>
              have hres2 : res = merged_entries
                  (traverseEnts subdir oldItems)
                  (traverseEnts subdir srcItems) := by
                simp only [overwrite_files, if_neg hsub, hjp,
                  Option.some.injEq] at hres
                exact hres.symm
              subst hres2
              rcases mem_merged_entries_src _ _ _ he with h | h
              · exact traverseEnts_path_shape subdir oldItems e h
              · exact traverseEnts_path_shape subdir srcItems e h

/-- Witness for `overwrite_files_only_subdir` at the `README`-free
destination of the running example. -/
theorem overwrite_files_only_subdir_witness :
    ((["tp0"] : List String) ≠ []) ∧
    (overwrite_files
      (.tree (.cons "tp0" 16384 (.tree (.cons "a" 33188 (.blob 1) .nil)) .nil))
      (.tree (.cons "b" 33188 (.blob 2) .nil)) ["tp0"] =
      some [⟨1, 33188, ["tp0", "a"]⟩, ⟨2, 33188, ["tp0", "b"]⟩]) ∧
    (∀ e ∈ [TEntry.mk 1 33188 ["tp0", "a"], TEntry.mk 2 33188 ["tp0", "b"]],
      ∃ r, r ≠ [] ∧ e.path = ["tp0"] ++ r) :=
  ⟨by decide, by decide,
    overwrite_files_only_subdir
      (.tree (.cons "tp0" 16384 (.tree (.cons "a" 33188 (.blob 1) .nil)) .nil))
      (.tree (.cons "b" 33188 (.blob 2) .nil)) ["tp0"]
      [⟨1, 33188, ["tp0", "a"]⟩, ⟨2, 33188, ["tp0", "b"]⟩]
      (by decide) (by decide)⟩

/-- C3 (counterexample to the claim as stated): a destination tree with a
root-level `README` (hash 9, outside `tp0`); the merge result contains no
entry at path `README` although the destination does, so the returned
root tree is not identical to the destination outside the target
subdirectory — the merge drops every file outside it. -/
theorem overwrite_files_outside_cex :
    ((overwrite_files
        (.tree (.cons "README" 33188 (.blob 9)
          (.cons "tp0" 16384 (.tree (.cons "a" 33188 (.blob 1) .nil)) .nil)))
        (.tree (.cons "b" 33188 (.blob 2) .nil)) ["tp0"]).map
      (fun es => es.find? (fun e => e.path = ["README"]))) = some none ∧
    ((traverseEnts [] (.cons "README" 33188 (.blob 9)
        (.cons "tp0" 16384 (.tree (.cons "a" 33188 (.blob 1) .nil))
          .nil))).find? (fun e => e.path = ["README"])) =
      some ⟨9, 33188, ["README"]⟩ := by
  decide

end Algo2
